import Mathlib

/-!
Verification of the breathing-pacer application (src/app.py).

The development shallowly embeds the three logic layers of the program:

* `normalize` / `toDurations` — the percentage normalization and phase
  duration arithmetic inlined in `create_breathing_app` (app.py lines
  26, 42-58).  Python computes `int(x * (100 / total))` with IEEE
  doubles; over the UI-bounded input domain (inhale, exhale ∈ [10,80],
  hold ∈ [0,80]) that truncation coincides with exact floor division,
  so the embedding uses exact integer arithmetic.
* `create_visualization` (app.py lines 155-205) — modelled as a pure
  function to a `Fig` value recording every drawn element with its
  geometric parameters and colours.
* `run_breathing_animation` (app.py lines 106-153) — modelled as a
  trace-producing function.  Reads of the shared
  `st.session_state.running` flag are drawn in order from a sequence
  `r : ℕ → Bool`; wall-clock truth values of the hold loop's time
  condition are summarised by an iteration count `holdIters`; renderer
  exceptions are injected through an oracle `fail`.
-/

namespace Breath

/-! ### PhaseNormalizer (app.py lines 42-53, inlined in create_breathing_app) -/

/-- Embeds app.py lines 42-53: if the three percentages do not sum to
100, each of inhale and exhale is scaled by `100 / total` and truncated
(`int` on a non-negative float is floor; exact arithmetic used here),
and hold absorbs the remainder `100 - inhale - exhale`, which can in
principle be negative, hence the `ℤ` codomain. -/
def normalize (inhale_percent exhale_percent hold_percent : ℕ) : ℤ × ℤ × ℤ :=
  let total_percent := inhale_percent + exhale_percent + hold_percent
  if total_percent = 100 then
    ((inhale_percent : ℤ), (exhale_percent : ℤ), (hold_percent : ℤ))
  else
    let i : ℕ := inhale_percent * 100 / total_percent
    let e : ℕ := exhale_percent * 100 / total_percent
    ((i : ℤ), (e : ℤ), 100 - (i : ℤ) - (e : ℤ))

/-- Embeds app.py lines 26 and 56-58: `total_cycle_time = 60 / bpm` and
each phase duration is `(percent / 100) * total_cycle_time`.  Exact
rational arithmetic stands in for IEEE doubles. -/
def toDurations (inhale_percent exhale_percent hold_percent : ℤ)
    (breaths_per_minute : ℕ) : ℚ × ℚ × ℚ :=
  let total_cycle_time : ℚ := 60 / (breaths_per_minute : ℚ)
  (((inhale_percent : ℚ) / 100) * total_cycle_time,
   ((exhale_percent : ℚ) / 100) * total_cycle_time,
   ((hold_percent : ℚ) / 100) * total_cycle_time)

/-- Sum of two floor divisions by a common denominator is at most the
floor division of the sum. -/
lemma nat_div_add_div_le (a b c : ℕ) : a / c + b / c ≤ (a + b) / c := by
  rcases Nat.eq_zero_or_pos c with hc | hc
  · simp [hc]
  · rw [Nat.le_div_iff_mul_le hc, Nat.add_mul]
    exact Nat.add_le_add (Nat.div_mul_le_self a c) (Nat.div_mul_le_self b c)

/-- The scaled inhale and exhale shares never exceed 100 together. -/
lemma scaled_shares_le_100 (i e h : ℕ) :
    i * 100 / (i + e + h) + e * 100 / (i + e + h) ≤ 100 := by
  set s := i + e + h with hs
  rcases Nat.eq_zero_or_pos s with h0 | h0
  · simp [h0]
  · calc i * 100 / s + e * 100 / s ≤ (i * 100 + e * 100) / s :=
          nat_div_add_div_le _ _ _
      _ ≤ s * 100 / s := by
          apply Nat.div_le_div_right
          have : i + e ≤ s := by omega
          calc i * 100 + e * 100 = (i + e) * 100 := by ring
            _ ≤ s * 100 := Nat.mul_le_mul_right 100 this
      _ = 100 := Nat.mul_div_cancel_left 100 h0

/-- C1: for UI-bounded inputs whose sum differs from 100, `normalize`
returns the floor-scaled inhale and exhale shares with hold absorbing
the remainder, and the result is a triple of non-negative integers
summing to exactly 100. -/
theorem normalize_scales_when_sum_ne_100
    (i e h : ℕ) (hi1 : 10 ≤ i) (hi2 : i ≤ 80) (he1 : 10 ≤ e) (he2 : e ≤ 80)
    (hh2 : h ≤ 80) (hne : i + e + h ≠ 100) :
    normalize i e h =
      (((i * 100 / (i + e + h) : ℕ) : ℤ), ((e * 100 / (i + e + h) : ℕ) : ℤ),
       100 - ((i * 100 / (i + e + h) : ℕ) : ℤ) - ((e * 100 / (i + e + h) : ℕ) : ℤ))
    ∧ 0 ≤ (normalize i e h).1 ∧ 0 ≤ (normalize i e h).2.1
    ∧ 0 ≤ (normalize i e h).2.2
    ∧ (normalize i e h).1 + (normalize i e h).2.1 + (normalize i e h).2.2 = 100 := by
  have hform : normalize i e h =
      (((i * 100 / (i + e + h) : ℕ) : ℤ), ((e * 100 / (i + e + h) : ℕ) : ℤ),
       100 - ((i * 100 / (i + e + h) : ℕ) : ℤ) - ((e * 100 / (i + e + h) : ℕ) : ℤ)) := by
    simp [normalize, hne]
  have hbound : ((i * 100 / (i + e + h) : ℕ) : ℤ)
      + ((e * 100 / (i + e + h) : ℕ) : ℤ) ≤ 100 := by
    exact_mod_cast scaled_shares_le_100 i e h
  refine ⟨hform, ?_, ?_, ?_, ?_⟩ <;> rw [hform] <;> dsimp only
  · exact Int.natCast_nonneg _
  · exact Int.natCast_nonneg _
  · omega
  · ring

/-- C1 witness: the concrete example from the spec, inhale=50, exhale=50,
hold=20 (sum 120) normalizes to (41, 41, 18). -/
theorem normalize_scales_witness :
    normalize 50 50 20 = (41, 41, 18)
    ∧ (normalize 50 50 20 = (((50 * 100 / 120 : ℕ) : ℤ), ((50 * 100 / 120 : ℕ) : ℤ),
         100 - ((50 * 100 / 120 : ℕ) : ℤ) - ((50 * 100 / 120 : ℕ) : ℤ))
       ∧ 0 ≤ (normalize 50 50 20).1 ∧ 0 ≤ (normalize 50 50 20).2.1
       ∧ 0 ≤ (normalize 50 50 20).2.2
       ∧ (normalize 50 50 20).1 + (normalize 50 50 20).2.1
           + (normalize 50 50 20).2.2 = 100) :=
  ⟨by decide,
   normalize_scales_when_sum_ne_100 50 50 20 (by decide) (by decide) (by decide)
     (by decide) (by decide) (by decide)⟩

/-- C7: when the three percentages already sum to 100, `normalize` is the
identity (up to the embedding of the inputs into ℤ). -/
theorem normalize_identity_when_sum_eq_100
    (i e h : ℕ) (hsum : i + e + h = 100) :
    normalize i e h = ((i : ℤ), (e : ℤ), (h : ℤ)) := by
  simp [normalize, hsum]

/-- C7 witness: the default configuration 40/40/20 passes through
unchanged. -/
theorem normalize_identity_witness :
    (40 : ℕ) + 40 + 20 = 100 ∧ normalize 40 40 20 = (40, 40, 20) :=
  ⟨by decide, normalize_identity_when_sum_eq_100 40 40 20 (by decide)⟩

/-- C9: for every UI-bounded input triple the hold share produced by
`normalize` is non-negative, because the two floor-divided shares sum to
at most 100; the pathological negative-hold case is unreachable. -/
theorem normalize_hold_nonneg
    (i e h : ℕ) (hi1 : 10 ≤ i) (hi2 : i ≤ 80) (he1 : 10 ≤ e) (he2 : e ≤ 80)
    (hh2 : h ≤ 80) :
    i * 100 / (i + e + h) + e * 100 / (i + e + h) ≤ 100
    ∧ 0 ≤ (normalize i e h).2.2 := by
  refine ⟨scaled_shares_le_100 i e h, ?_⟩
  by_cases hsum : i + e + h = 100
  · simp [normalize, hsum]
  · have hbound := scaled_shares_le_100 i e h
    have hform : (normalize i e h).2.2 =
        100 - (i * 100 / (i + e + h) : ℕ) - (e * 100 / (i + e + h) : ℕ) := by
      simp [normalize, hsum]
    rw [hform]
    have : ((i * 100 / (i + e + h) : ℕ) : ℤ) + ((e * 100 / (i + e + h) : ℕ) : ℤ) ≤ 100 := by
      exact_mod_cast hbound
    omega

/-- C9 witness: at the extreme corner 80/80/80 of the UI bounds the hold
share is still non-negative. -/
theorem normalize_hold_nonneg_witness :
    (80 * 100 / (80 + 80 + 80) + 80 * 100 / (80 + 80 + 80) ≤ 100
      ∧ 0 ≤ (normalize 80 80 80).2.2)
    ∧ normalize 80 80 80 = (33, 33, 34) :=
  ⟨normalize_hold_nonneg 80 80 80 (by decide) (by decide) (by decide)
     (by decide) (by decide), by decide⟩

/-- C5: for any normalized triple summing to 100 and any breathing rate,
each phase duration is `(percent / 100) * (60 / bpm)` and the three
durations sum exactly to `60 / bpm`, in particular within 1e-9. -/
theorem toDurations_sum
    (i e h : ℤ) (bpm : ℕ) (hbpm1 : 1 ≤ bpm) (hbpm2 : bpm ≤ 30)
    (hi : 0 ≤ i) (he : 0 ≤ e) (hh : 0 ≤ h) (hsum : i + e + h = 100) :
    toDurations i e h bpm =
      (((i : ℚ) / 100) * (60 / (bpm : ℚ)),
       ((e : ℚ) / 100) * (60 / (bpm : ℚ)),
       ((h : ℚ) / 100) * (60 / (bpm : ℚ)))
    ∧ (toDurations i e h bpm).1 + (toDurations i e h bpm).2.1
        + (toDurations i e h bpm).2.2 = 60 / (bpm : ℚ)
    ∧ |(toDurations i e h bpm).1 + (toDurations i e h bpm).2.1
        + (toDurations i e h bpm).2.2 - 60 / (bpm : ℚ)| < 1 / 1000000000 := by
  have hq : (i : ℚ) + (e : ℚ) + (h : ℚ) = 100 := by exact_mod_cast hsum
  have hsumEq : (toDurations i e h bpm).1 + (toDurations i e h bpm).2.1
      + (toDurations i e h bpm).2.2 = 60 / (bpm : ℚ) := by
    simp only [toDurations]
    field_simp
    linear_combination (60 * (bpm : ℚ)) * hq
  refine ⟨rfl, hsumEq, ?_⟩
  rw [hsumEq]
  simp

/-- C5 witness: six breaths per minute with the 40/40/20 split gives a
10-second cycle split as 4s inhale, 4s exhale, 2s hold. -/
theorem toDurations_sum_witness :
    toDurations 40 40 20 6 = (4, 4, 2)
    ∧ (toDurations 40 40 20 6).1 + (toDurations 40 40 20 6).2.1
        + (toDurations 40 40 20 6).2.2 = 60 / (6 : ℚ)
    ∧ (60 : ℚ) / 6 = 10 :=
  ⟨by norm_num [toDurations],
   (toDurations_sum 40 40 20 6 (by decide) (by decide) (by decide) (by decide)
      (by decide) (by decide)).2.1,
   by norm_num⟩

/-! ### ShapeRenderer (app.py lines 155-205, create_visualization) -/

/-- Upper x-axis limit of the figure: the source sets it to 1 for the
Circle and Lung styles and to 2π for Wave (app.py line 199). -/
inductive XUpper where
  | one
  | twoPi
deriving DecidableEq

/-- A drawn element of the figure.  Curves produced from numpy sine
samples are recorded by their generating parameters: a `sinePlot` over
domain `d` is the curve `y = base + amp * sin(π x)` (for `d = one`,
sampled on [0,1]) or `y = base + amp * sin x` (for `d = twoPi`, sampled
on [0,2π]); `sineFillBetween` fills the region between two such curves
with amplitudes `ampLo` and `ampHi`. -/
inductive Elem where
  | circleShape (cx cy radius : ℚ) (color : String) (alpha : ℚ)
      (filled : Bool) (dashed : Bool)
  | sinePlot (base amp : ℚ) (d : XUpper) (color : String)
      (alpha : Option ℚ) (linewidth : Option ℚ)
  | sineFillBetween (base ampLo ampHi : ℚ) (d : XUpper) (color : String)
      (alpha : ℚ)
  | textLabel (x y : ℚ) (content : String) (fontsize : ℕ) (color : String)
deriving DecidableEq

/-- The figure assembled by `create_visualization`: its drawn elements
in drawing order, plus the axis configuration from app.py lines 199-201. -/
structure Fig where
  elems : List Elem
  xUpper : XUpper
  ylim : ℚ × ℚ
  aspectEqual : Bool
deriving DecidableEq

/-- Python `int()` applied to a real value: truncation toward zero. -/
def pyint (q : ℚ) : ℤ := if q < 0 then ⌈q⌉ else ⌊q⌋

/-- Embeds app.py lines 155-205.  The styles draw, in order: Circle — a
filled skyblue circle of radius `(0.1 + progress*0.8)/2` plus a dashed
gray reference circle of radius 0.45; Lung — a pink fill between the
mirrored curves `0.5 ± 0.2*sin(π x)*progress` and the two red curves;
Wave — a blue sine of amplitude `progress*0.4` about baseline 0.5 and a
lightblue fill down to the baseline.  Every style appends the centered
percent label `int(progress*100)` at (0.5, 0.05).  The phase-derived
color computed at line 189 is bound but never applied to any element,
which the model keeps as a dead let-binding. -/
def create_visualization (progress : ℚ) (style phase : String) : Fig :=
  let shapeElems : List Elem :=
    if style == "Circle" then
      let size := 1/10 + progress * (8/10)
      [Elem.circleShape (1/2) (1/2) (size/2) "skyblue" (7/10) true false,
       Elem.circleShape (1/2) (1/2) (45/100) "gray" (5/10) false true]
    else if style == "Lung" then
      [Elem.sineFillBetween (1/2) ((1/5) * progress) (-((1/5) * progress))
         XUpper.one "pink" (7/10),
       Elem.sinePlot (1/2) ((1/5) * progress) XUpper.one "red" (some (8/10)) none,
       Elem.sinePlot (1/2) (-((1/5) * progress)) XUpper.one "red" (some (8/10)) none]
    else if style == "Wave" then
      [Elem.sinePlot (1/2) (progress * (2/5)) XUpper.twoPi "blue" none (some 3),
       Elem.sineFillBetween (1/2) 0 (progress * (2/5)) XUpper.twoPi
         "lightblue" (7/10)]
    else []
  let _phase_color : String := if phase == "inhale" then "skyblue" else "lightgreen"
  let label := Elem.textLabel (1/2) (1/20)
    (toString (pyint (progress * 100)) ++ "%") 16 "black"
  { elems := shapeElems ++ [label]
    xUpper := if style == "Circle" then XUpper.one
              else if style == "Wave" then XUpper.twoPi else XUpper.one
    ylim := (0, 1)
    aspectEqual := style == "Circle" }

/-- Contents of the text labels drawn in a figure, in drawing order. -/
def figLabels (f : Fig) : List String :=
  f.elems.filterMap fun e =>
    match e with
    | Elem.textLabel _ _ s _ _ => some s
    | _ => none

/-- C8 counterexample: at progress 999/1000 the figure's label reads
"99%" (the code truncates with `int`), while rounding as the claim
states would give "100%". -/
theorem visualization_label_truncates_not_rounds :
    figLabels (create_visualization (999/1000) "Circle" "inhale") = ["99%"]
    ∧ round ((999/1000 : ℚ) * 100) = 100
    ∧ toString (round ((999/1000 : ℚ) * 100)) ++ "%" = "100%"
    ∧ ("99%" : String) ≠ "100%" := by
  have hfloor : pyint ((999/1000 : ℚ) * 100) = 99 := by
    rw [pyint, if_neg (by norm_num)]
    norm_num
  have hround : round ((999/1000 : ℚ) * 100) = 100 := by norm_num [round_eq]
  refine ⟨?_, hround, by rw [hround]; rfl, by decide⟩
  simp only [figLabels, create_visualization, hfloor]
  rfl

/-- C8 (amended): for every progress in [0,1] and every style the figure
overlays the single centered percent label `int(progress*100)`, i.e.
`floor(progress*100)` (truncation, not rounding); and for the Circle
style the filled circle's radius fraction is `0.05 + progress * 0.4`. -/
theorem visualization_label_and_radius (p : ℚ) (style phase : String)
    (h0 : 0 ≤ p) (h1 : p ≤ 1) :
    figLabels (create_visualization p style phase)
      = [toString ⌊p * 100⌋ ++ "%"]
    ∧ Elem.textLabel (1/2) (1/20) (toString ⌊p * 100⌋ ++ "%") 16 "black"
        ∈ (create_visualization p style phase).elems
    ∧ Elem.circleShape (1/2) (1/2) (1/20 + p * (2/5)) "skyblue" (7/10) true false
        ∈ (create_visualization p "Circle" phase).elems := by
  have hnn : ¬ p * 100 < 0 := not_lt.mpr (by positivity)
  have hpy : pyint (p * 100) = ⌊p * 100⌋ := by simp [pyint, hnn]
  refine ⟨?_, ?_, ?_⟩
  · simp only [create_visualization, figLabels, hpy]
    split_ifs <;> simp [List.filterMap]
  · simp only [create_visualization, hpy]
    split_ifs <;> simp
  · have hsize : (1/10 + p * (8/10))/2 = 1/20 + p * (2/5) := by ring
    have hmem : Elem.circleShape (1/2) (1/2) ((1/10 + p * (8/10))/2) "skyblue" (7/10)
        true false ∈ (create_visualization p "Circle" phase).elems := by
      simp [create_visualization]
    rwa [hsize] at hmem

/-- C8 witness: at progress 1/2 the Circle figure has radius fraction
1/4 and label "50%", and at progress 0 the radius is the minimum 1/20. -/
theorem visualization_label_and_radius_witness :
    ((0:ℚ) ≤ 1/2 ∧ (1/2:ℚ) ≤ 1
      ∧ figLabels (create_visualization (1/2) "Circle" "inhale")
          = [toString ⌊(1/2 : ℚ) * 100⌋ ++ "%"]
      ∧ Elem.circleShape (1/2) (1/2) (1/20 + (1/2 : ℚ) * (2/5)) "skyblue" (7/10)
          true false ∈ (create_visualization (1/2) "Circle" "inhale").elems)
    ∧ (1/20 + (1/2 : ℚ) * (2/5) = 1/4)
    ∧ Elem.circleShape (1/2) (1/2) (1/20) "skyblue" (7/10) true false
        ∈ (create_visualization 0 "Circle" "inhale").elems := by
  have h1 := visualization_label_and_radius (1/2) "Circle" "inhale"
    (by norm_num) (by norm_num)
  have h0 := visualization_label_and_radius 0 "Circle" "inhale"
    (by norm_num) (by norm_num)
  refine ⟨⟨by norm_num, by norm_num, h1.1, h1.2.2⟩, by norm_num, ?_⟩
  have := h0.2.2
  simpa using this

/-- C10: the figure is completely independent of the phase argument —
the phase-derived color is computed but never applied, so any two
phases produce identical output. -/
theorem visualization_ignores_phase (p : ℚ) (style ph1 ph2 : String) :
    create_visualization p style ph1 = create_visualization p style ph2 := rfl

/-! ### CycleClock / SessionController (app.py lines 106-153, run_breathing_animation)

The loop is single-threaded and cooperative: the only interaction with
the outside world is (a) successive reads of the shared
`st.session_state.running` flag, modelled by a read sequence
`r : ℕ → Bool` consumed in program order, (b) wall-clock time in the
hold phase, summarised by `holdIters`, the number of times the hold
loop's time condition evaluates to true, and (c) exceptions raised
while producing or displaying a frame, injected by the oracle `fail`.
The loop's observable behaviour is recorded as a trace of events. -/

/-- Animated breathing phase (only inhale and exhale emit frames). -/
inductive BPhase where
  | inhale
  | exhale
deriving DecidableEq

/-- Observable events of `run_breathing_animation`: a read of the
running flag together with the value read, a markdown heading written
to the instruction placeholder, a frame rendered and displayed, and a
`time.sleep` suspension. -/
inductive Ev where
  | check (b : Bool)
  | header (s : String)
  | frame (ph : BPhase) (p : ℚ)
  | sleepFor (d : ℚ)
deriving DecidableEq

/-- The environment a run of the loop interacts with. -/
structure Env where
  r : ℕ → Bool
  fail : BPhase → ℚ → Option String
  inhale_time : ℚ
  exhale_time : ℚ
  hold_time : ℚ
  holdIters : ℕ

/-- `steps = 20` animation steps per phase (app.py line 112). -/
def steps : ℕ := 20

/-- Progress displayed at iteration `i`: `i / steps` while inhaling
(app.py line 115), `1 - i / steps` while exhaling (line 142). -/
def progAt : BPhase → ℕ → ℚ
  | BPhase.inhale, i => (i : ℚ) / (steps : ℚ)
  | BPhase.exhale, i => 1 - (i : ℚ) / (steps : ℚ)

/-- Result of running a fragment of the loop: the events produced, the
next unconsumed index into the flag-read sequence, the exception that
escaped the fragment (if any), and whether the fragment's `for` loop
was left through a `break`. -/
structure LoopRes where
  evs : List Ev
  k : ℕ
  exn : Option String
  broke : Bool

/-- Embeds the two `for i in range(steps + 1)` phase loops (app.py
lines 114-122 and 141-149): each iteration renders and displays the
frame (which may raise), sleeps `dur / steps`, then reads the running
flag and breaks if it is false. -/
def forPhase (env : Env) (ph : BPhase) (dur : ℚ) : List ℕ → ℕ → LoopRes
  | [], k => ⟨[], k, none, false⟩
  | i :: rest, k =>
    let p := progAt ph i
    match env.fail ph p with
    | some msg => ⟨[], k, some msg, false⟩
    | none =>
      let blk := [Ev.frame ph p, Ev.sleepFor (dur / (steps : ℚ)), Ev.check (env.r k)]
      if env.r k then
        let res := forPhase env ph dur rest (k + 1)
        ⟨blk ++ res.evs, res.k, res.exn, res.broke⟩
      else ⟨blk, k + 1, none, true⟩

/-- Embeds the hold busy-wait (app.py lines 130-134): while wall-clock
time remains (`m` further iterations), read the flag, break if false,
otherwise sleep 0.1 s. -/
def holdWait (env : Env) : ℕ → ℕ → List Ev × ℕ
  | 0, k => ([], k)
  | m + 1, k =>
    if env.r k then
      let res := holdWait env m (k + 1)
      (Ev.check true :: Ev.sleepFor (1/10) :: res.1, res.2)
    else ([Ev.check false], k + 1)

/-- Embeds one iteration of the `while` body (app.py lines 110-149):
inhale loop, flag check at line 124, optional hold phase, flag check at
line 136, exhale loop.  `broke` records leaving the `while` through one
of the two `break` statements at lines 125 and 137. -/
def cycleBody (env : Env) (k : ℕ) : LoopRes :=
  let rIn := forPhase env BPhase.inhale env.inhale_time (List.range (steps + 1)) k
  let pre := Ev.header "## Inhale" :: rIn.evs
  match rIn.exn with
  | some msg => ⟨pre, rIn.k, some msg, false⟩
  | none =>
    if env.r rIn.k then
      let holdRes : List Ev × ℕ :=
        if 0 < env.hold_time then
          let hw := holdWait env env.holdIters (rIn.k + 1)
          (Ev.header "## Hold" :: hw.1, hw.2)
        else ([], rIn.k + 1)
      if env.r holdRes.2 then
        let rEx := forPhase env BPhase.exhale env.exhale_time
          (List.range (steps + 1)) (holdRes.2 + 1)
        ⟨pre ++ Ev.check true :: holdRes.1
            ++ Ev.check true :: Ev.header "## Exhale" :: rEx.evs,
         rEx.k, rEx.exn, false⟩
      else ⟨pre ++ Ev.check true :: holdRes.1 ++ [Ev.check false],
            holdRes.2 + 1, none, true⟩
    else ⟨pre ++ [Ev.check false], rIn.k + 1, none, true⟩

/-- Embeds the `while st.session_state.running` loop (app.py line 109),
bounded by `fuel` iterations; returns the trace and the exception that
escaped the loop, if any. -/
def whileLoop (env : Env) : ℕ → ℕ → List Ev × Option String
  | 0, _ => ([], none)
  | fuel + 1, k =>
    if env.r k then
      let res := cycleBody env (k + 1)
      match res.exn with
      | some msg => (Ev.check true :: res.evs, some msg)
      | none =>
        if res.broke then (Ev.check true :: res.evs, none)
        else
          let rest := whileLoop env fuel res.k
          (Ev.check true :: res.evs ++ rest.1, rest.2)
    else ([Ev.check false], none)

/-- Outcome of `run_breathing_animation`: the trace, the error message
shown with `st.error` (if any), and the value the handler forcibly
wrote into `st.session_state.running` (`none` when the loop terminated
without touching the flag). -/
structure RunOut where
  evs : List Ev
  errMsg : Option String
  runningOverride : Option Bool

/-- Embeds app.py lines 106-153: the whole loop runs inside a
`try/except` whose handler shows `Animation error: {e}` and sets
`st.session_state.running = False`. -/
def run_breathing_animation (env : Env) (fuel : ℕ) : RunOut :=
  let res := whileLoop env fuel 0
  match res.2 with
  | some msg => ⟨res.1, some ("Animation error: " ++ msg), some false⟩
  | none => ⟨res.1, none, none⟩

/-- The frames displayed along a trace, in order. -/
def frames (evs : List Ev) : List (BPhase × ℚ) :=
  evs.filterMap fun e =>
    match e with
    | Ev.frame ph p => some (ph, p)
    | _ => none

/-- The running flag can only be cleared, never set, while the loop
runs (stop is the only writer): once a read returns false, all later
reads return false. -/
def MonoFalse (r : ℕ → Bool) : Prop :=
  ∀ a b : ℕ, a ≤ b → r a = false → r b = false

/-- Trace of one uncancelled phase loop: 21 blocks of frame, sleep,
check-true. -/
def phaseBlock (ph : BPhase) (dur : ℚ) : List Ev :=
  (List.range (steps + 1)).flatMap fun i =>
    [Ev.frame ph (progAt ph i), Ev.sleepFor (dur / (steps : ℚ)), Ev.check true]

/-- Trace of the uncancelled hold section: nothing when `hold_time = 0`,
otherwise the heading followed by `m` check-sleep slices. -/
def holdBlock (ht : ℚ) (m : ℕ) : List Ev :=
  if 0 < ht then
    Ev.header "## Hold" :: (List.replicate m [Ev.check true, Ev.sleepFor (1/10)]).flatten
  else []

/-- A phase loop that reads only true flags and never fails runs all
`steps + 1` iterations. -/
lemma forPhase_run (env : Env) (ph : BPhase) (dur : ℚ)
    (hr : ∀ k, env.r k = true) (hf : ∀ ph p, env.fail ph p = none)
    (is : List ℕ) (k : ℕ) :
    forPhase env ph dur is k =
      ⟨is.flatMap (fun i => [Ev.frame ph (progAt ph i),
          Ev.sleepFor (dur / (steps : ℚ)), Ev.check true]),
       k + is.length, none, false⟩ := by
  induction is generalizing k with
  | nil => simp [forPhase]
  | cons i rest ih =>
    rw [forPhase, hf, ih (k + 1)]
    simp [hr, List.flatMap_cons]
    omega

/-- The hold busy-wait with only true flag reads runs all its slices. -/
lemma holdWait_run (env : Env) (hr : ∀ k, env.r k = true) (m k : ℕ) :
    holdWait env m k =
      ((List.replicate m [Ev.check true, Ev.sleepFor (1/10)]).flatten, k + m) := by
  induction m generalizing k with
  | zero => simp [holdWait]
  | succ n ih =>
    rw [holdWait, if_pos (by rw [hr]), ih (k + 1)]
    simp [List.replicate_succ]
    omega

/-- `frames` distributes over concatenation. -/
lemma frames_append (l1 l2 : List Ev) :
    frames (l1 ++ l2) = frames l1 ++ frames l2 :=
  List.filterMap_append l1 l2 _

/-- A list of events none of which is a frame contributes no frames. -/
lemma frames_eq_nil (l : List Ev)
    (h : ∀ e ∈ l, ∀ ph p, e ≠ Ev.frame ph p) : frames l = [] := by
  induction l with
  | nil => rfl
  | cons e rest ih =>
    have hrest := ih fun x hx => h x (List.mem_cons_of_mem e hx)
    have he := h e (List.mem_cons_self e rest)
    cases e with
    | frame ph p => exact absurd rfl (he ph p)
    | check b => simpa [frames] using hrest
    | header s => simpa [frames] using hrest
    | sleepFor d => simpa [frames] using hrest

/-- The frames of an uncancelled phase loop are the 21 progress values
of the phase, in order. -/
lemma frames_phaseBlock (ph : BPhase) (dur : ℚ) :
    frames (phaseBlock ph dur)
      = (List.range (steps + 1)).map fun i => (ph, progAt ph i) := by
  rw [phaseBlock]
  induction List.range (steps + 1) with
  | nil => rfl
  | cons i rest ih =>
    rw [List.flatMap_cons, frames_append, ih, List.map_cons]
    rfl

/-- The hold section displays no frames. -/
lemma frames_holdBlock (ht : ℚ) (m : ℕ) : frames (holdBlock ht m) = [] := by
  apply frames_eq_nil
  intro e he ph p
  rw [holdBlock] at he
  split_ifs at he with hht
  · rcases List.mem_cons.mp he with h | h
    · simp [h]
    · rcases List.mem_flatten.mp h with ⟨l, hl, hel⟩
      rw [List.eq_of_mem_replicate hl] at hel
      simp only [List.mem_cons, List.mem_singleton, List.not_mem_nil, or_false] at hel
      rcases hel with h | h <;> simp [h]
  · simp at he

/-- No heading is written inside a phase loop. -/
lemma header_not_mem_forPhase (env : Env) (ph : BPhase) (dur : ℚ)
    (is : List ℕ) (k : ℕ) (s : String) :
    Ev.header s ∉ (forPhase env ph dur is k).evs := by
  induction is generalizing k with
  | nil => simp [forPhase]
  | cons i rest ih =>
    rw [forPhase]
    cases hfail : env.fail ph (progAt ph i) with
    | some msg => simp
    | none =>
      by_cases hr : env.r k
      · simpa [hr] using ih (k + 1)
      · simp [hr]

/-- The environment of a run during which the running flag stays true,
no renderer call fails, the phase durations are `it`, `et`, `ht` and
the hold wait takes `m` slices. -/
def allTrueEnv (it et ht : ℚ) (m : ℕ) : Env :=
  ⟨fun _ => true, fun _ _ => none, it, et, ht, m⟩

/-- One uncancelled, failure-free iteration of the while body produces
the inhale block, the hold block and the exhale block in order. -/
lemma cycleBody_run (it et ht : ℚ) (m k : ℕ) :
    (cycleBody (allTrueEnv it et ht m) k).evs
        = Ev.header "## Inhale" :: phaseBlock BPhase.inhale it
            ++ Ev.check true :: holdBlock ht m
            ++ Ev.check true :: Ev.header "## Exhale" :: phaseBlock BPhase.exhale et
    ∧ (cycleBody (allTrueEnv it et ht m) k).exn = none
    ∧ (cycleBody (allTrueEnv it et ht m) k).broke = false := by
  have hr : ∀ j, (allTrueEnv it et ht m).r j = true := fun _ => rfl
  have hf : ∀ ph p, (allTrueEnv it et ht m).fail ph p = none := fun _ _ => rfl
  have hin := forPhase_run (allTrueEnv it et ht m) BPhase.inhale
    ((allTrueEnv it et ht m).inhale_time) hr hf (List.range (steps + 1)) k
  rw [cycleBody, hin]
  by_cases hht : 0 < ht
  · have hht' : 0 < (allTrueEnv it et ht m).hold_time := hht
    simp only [hht', if_pos, holdWait_run _ hr, hr, if_true]
    rw [forPhase_run _ _ _ hr hf]
    rw [holdBlock, if_pos hht]
    simp [allTrueEnv, phaseBlock]
  · have hht' : ¬ 0 < (allTrueEnv it et ht m).hold_time := hht
    simp only [hht', if_neg, hr, if_true, ite_false]
    rw [forPhase_run _ _ _ hr hf]
    rw [holdBlock, if_neg hht]
    simp [allTrueEnv, phaseBlock]

/-- No heading event occurs inside a phase block. -/
lemma header_not_mem_phaseBlock (ph : BPhase) (dur : ℚ) (s : String) :
    Ev.header s ∉ phaseBlock ph dur := by
  rw [phaseBlock]
  intro h
  rcases List.mem_flatMap.mp h with ⟨i, hi, hmem⟩
  simp at hmem

/-- The trace of a single-cycle run with the flag held true. -/
lemma whileLoop_one_cycle (it et ht : ℚ) (m : ℕ) :
    (whileLoop (allTrueEnv it et ht m) 1 0).1
      = Ev.check true :: Ev.header "## Inhale" :: phaseBlock BPhase.inhale it
          ++ Ev.check true :: holdBlock ht m
          ++ Ev.check true :: Ev.header "## Exhale" :: phaseBlock BPhase.exhale et := by
  obtain ⟨hevs, hexn, hbroke⟩ := cycleBody_run it et ht m 1
  have e1 : (allTrueEnv it et ht m).r 0 = true := rfl
  rw [whileLoop, if_pos e1]
  simp only [Nat.zero_add, hexn, hbroke, Bool.false_eq_true, if_false, whileLoop,
    List.append_nil]
  rw [hevs]
  simp

/-- C2: one full cycle of the loop with the running flag held true
throughout emits the 21 inhale frames with progress 0, 1/20, ..., 1 in
increasing steps of exactly 1/20, then a hold section containing no
frames whose heading appears iff the hold duration is positive, then
the 21 exhale frames with progress 1, 19/20, ..., 0 in decreasing
steps of exactly 1/20. -/
theorem one_cycle_frames (it et ht : ℚ) (m : ℕ) :
    frames (whileLoop (allTrueEnv it et ht m) 1 0).1
      = ((List.range (steps + 1)).map fun i : ℕ => (BPhase.inhale, (i : ℚ) / (steps : ℚ)))
        ++ ((List.range (steps + 1)).map fun i : ℕ => (BPhase.exhale, 1 - (i : ℚ) / (steps : ℚ)))
    ∧ (Ev.header "## Hold" ∈ (whileLoop (allTrueEnv it et ht m) 1 0).1 ↔ 0 < ht)
    ∧ (∃ t1 t2 t3, (whileLoop (allTrueEnv it et ht m) 1 0).1 = t1 ++ t2 ++ t3
        ∧ frames t1 = ((List.range (steps + 1)).map fun i : ℕ =>
            (BPhase.inhale, (i : ℚ) / (steps : ℚ)))
        ∧ frames t2 = []
        ∧ (Ev.header "## Hold" ∈ t2 ↔ 0 < ht)
        ∧ frames t3 = ((List.range (steps + 1)).map fun i : ℕ =>
            (BPhase.exhale, 1 - (i : ℚ) / (steps : ℚ))))
    ∧ List.Chain' (fun a b => b = a + 1 / (steps : ℚ))
        (((frames (whileLoop (allTrueEnv it et ht m) 1 0).1).take (steps + 1)).map Prod.snd)
    ∧ List.Chain' (fun a b => b = a - 1 / (steps : ℚ))
        (((frames (whileLoop (allTrueEnv it et ht m) 1 0).1).drop (steps + 1)).map Prod.snd) := by
  have htrace := whileLoop_one_cycle it et ht m
  have hinh : frames (phaseBlock BPhase.inhale it)
      = (List.range (steps + 1)).map fun i : ℕ => (BPhase.inhale, (i : ℚ) / (steps : ℚ)) := by
    rw [frames_phaseBlock]; rfl
  have hexh : frames (phaseBlock BPhase.exhale et)
      = (List.range (steps + 1)).map fun i : ℕ => (BPhase.exhale, 1 - (i : ℚ) / (steps : ℚ)) := by
    rw [frames_phaseBlock]; rfl
  have hframes : frames (whileLoop (allTrueEnv it et ht m) 1 0).1
      = ((List.range (steps + 1)).map fun i : ℕ => (BPhase.inhale, (i : ℚ) / (steps : ℚ)))
        ++ ((List.range (steps + 1)).map fun i : ℕ =>
            (BPhase.exhale, 1 - (i : ℚ) / (steps : ℚ))) := by
    rw [htrace]
    show frames ([Ev.check true, Ev.header "## Inhale"]
        ++ (phaseBlock BPhase.inhale it
            ++ ([Ev.check true] ++ (holdBlock ht m
              ++ ([Ev.check true, Ev.header "## Exhale"]
                  ++ phaseBlock BPhase.exhale et))))) = _
    rw [frames_append, frames_append, frames_append, frames_append, frames_append,
      frames_holdBlock, hinh, hexh]
    rfl
  have hHoldIff : Ev.header "## Hold" ∈ holdBlock ht m ↔ 0 < ht := by
    rw [holdBlock]
    split_ifs with hht
    · simp [hht]
    · simp [hht]
  have hnotInh := header_not_mem_phaseBlock BPhase.inhale it "## Hold"
  have hnotExh := header_not_mem_phaseBlock BPhase.exhale et "## Hold"
  refine ⟨hframes, ?_, ?_, ?_, ?_⟩
  · rw [htrace]
    simp [List.mem_cons, List.mem_append, hHoldIff, hnotInh, hnotExh]
  · refine ⟨Ev.check true :: Ev.header "## Inhale" :: phaseBlock BPhase.inhale it,
      Ev.check true :: holdBlock ht m,
      Ev.check true :: Ev.header "## Exhale" :: phaseBlock BPhase.exhale et,
      ?_, ?_, ?_, ?_, ?_⟩
    · rw [htrace]
    · show frames ([Ev.check true, Ev.header "## Inhale"]
          ++ phaseBlock BPhase.inhale it) = _
      rw [frames_append, hinh]; rfl
    · show frames ([Ev.check true] ++ holdBlock ht m) = []
      rw [frames_append, frames_holdBlock]; rfl
    · simp [List.mem_cons, hHoldIff]
    · show frames ([Ev.check true, Ev.header "## Exhale"]
          ++ phaseBlock BPhase.exhale et) = _
      rw [frames_append, hexh]; rfl
  · rw [hframes, List.take_left' (by simp), List.map_map, List.chain'_map,
      List.chain'_range_succ]
    intro i hi
    show ((i + 1 : ℕ) : ℚ) / (steps : ℚ) = (i : ℚ) / (steps : ℚ) + 1 / (steps : ℚ)
    push_cast
    ring
  · rw [hframes, List.drop_left' (by simp), List.map_map, List.chain'_map,
      List.chain'_range_succ]
    intro i hi
    show 1 - ((i + 1 : ℕ) : ℚ) / (steps : ℚ) = (1 - (i : ℚ) / (steps : ℚ)) - 1 / (steps : ℚ)
    push_cast
    ring

/-- A phase loop whose first false flag read occurs at index `j`
within its read range emits exactly the frames of iterations up to the
break, then stops with the read cursor just past `j`. -/
lemma forPhase_stops (env : Env) (ph : BPhase) (dur : ℚ)
    (hf : ∀ ph p, env.fail ph p = none) (j : ℕ)
    (hj : env.r j = false) (hlt : ∀ i, i < j → env.r i = true) :
    ∀ (is : List ℕ) (k : ℕ), k ≤ j → j < k + is.length →
      frames (forPhase env ph dur is k).evs
          = (is.take (j + 1 - k)).map (fun i => (ph, progAt ph i))
      ∧ (forPhase env ph dur is k).k = j + 1
      ∧ (forPhase env ph dur is k).exn = none
      ∧ (forPhase env ph dur is k).broke = true := by
  intro is
  induction is with
  | nil =>
    intro k hk hlen
    simp only [List.length_nil, Nat.add_zero] at hlen
    omega
  | cons i rest ih =>
    intro k hk hlen
    rw [forPhase, hf]
    by_cases hkj : k = j
    · subst hkj
      rw [hj]
      have htake : k + 1 - k = 1 := by omega
      rw [htake]
      refine ⟨?_, ?_, ?_, ?_⟩ <;> simp only [Bool.false_eq_true, if_false] <;> rfl
    · have hklt : k < j := lt_of_le_of_ne hk hkj
      rw [hlt k hklt]
      simp only [if_true]
      obtain ⟨h1, h2, h3, h4⟩ := ih (k + 1) (by omega)
        (by simp only [List.length_cons] at hlen; omega)
      have htake : j + 1 - k = (j + 1 - (k + 1)) + 1 := by omega
      refine ⟨?_, h2, h3, h4⟩
      rw [htake, List.take_succ_cons, List.map_cons]
      show frames ([Ev.frame ph (progAt ph i), Ev.sleepFor (dur / (steps : ℚ)),
          Ev.check (env.r k)] ++ (forPhase env ph dur rest (k + 1)).evs) = _
      rw [frames_append, h1]
      rfl

/-- C3: if the running flag is cleared while the loop is in the inhale
phase — its first false read happening at one of the inhale loop's
checkpoints — then the run emits exactly the inhale frames displayed
before that checkpoint and never reaches the hold or exhale phases:
no hold heading, no exhale heading and no exhale frame appears. -/
theorem cancel_mid_inhale_stops (env : Env) (fuel j : ℕ)
    (hf : ∀ ph p, env.fail ph p = none)
    (hmono : MonoFalse env.r)
    (hj : env.r j = false) (hlt : ∀ i, i < j → env.r i = true)
    (hj1 : 1 ≤ j) (hj21 : j ≤ steps + 1) :
    frames (whileLoop env (fuel + 1) 0).1
        = (List.range j).map (fun i : ℕ => (BPhase.inhale, (i : ℚ) / (steps : ℚ)))
    ∧ Ev.header "## Hold" ∉ (whileLoop env (fuel + 1) 0).1
    ∧ Ev.header "## Exhale" ∉ (whileLoop env (fuel + 1) 0).1
    ∧ ∀ p, (BPhase.exhale, p) ∉ frames (whileLoop env (fuel + 1) 0).1 := by
  have h0 : env.r 0 = true := hlt 0 (by omega)
  obtain ⟨hfr, hk, hexn, hbroke⟩ := forPhase_stops env BPhase.inhale
    env.inhale_time hf j hj hlt (List.range (steps + 1)) 1 hj1
    (by simp only [List.length_range]; omega)
  have hr124 : env.r (forPhase env BPhase.inhale env.inhale_time
      (List.range (steps + 1)) 1).k = false := by
    rw [hk]; exact hmono j (j + 1) (by omega) hj
  have hcb : (cycleBody env 1).evs
      = Ev.header "## Inhale" :: (forPhase env BPhase.inhale env.inhale_time
          (List.range (steps + 1)) 1).evs ++ [Ev.check false]
      ∧ (cycleBody env 1).exn = none ∧ (cycleBody env 1).broke = true := by
    rw [cycleBody]
    rcases hx : (forPhase env BPhase.inhale env.inhale_time
        (List.range (steps + 1)) 1).exn with _ | msg
    · rw [hr124]
      simp
    · rw [hx] at hexn; exact absurd hexn (by simp)
  have htrace : (whileLoop env (fuel + 1) 0).1
      = Ev.check true :: (cycleBody env 1).evs := by
    rw [whileLoop, if_pos h0]
    simp only [Nat.zero_add, hcb.2.1, hcb.2.2, if_true]
  have htake : (List.range (steps + 1)).take (j + 1 - 1)
      = List.range j := by
    have : j + 1 - 1 = j := by omega
    rw [this, List.take_range, Nat.min_eq_left hj21]
  have hframes : frames (whileLoop env (fuel + 1) 0).1
      = (List.range j).map (fun i : ℕ => (BPhase.inhale, (i : ℚ) / (steps : ℚ))) := by
    rw [htrace, hcb.1]
    show frames ([Ev.check true, Ev.header "## Inhale"]
        ++ ((forPhase env BPhase.inhale env.inhale_time
            (List.range (steps + 1)) 1).evs ++ [Ev.check false])) = _
    rw [frames_append, frames_append, hfr, htake]
    have h1 : frames [Ev.check true, Ev.header "## Inhale"] = [] := rfl
    have h2 : frames [Ev.check false] = [] := rfl
    rw [h1, h2, List.nil_append, List.append_nil]
    rfl
  refine ⟨hframes, ?_, ?_, ?_⟩
  · rw [htrace, hcb.1]
    intro hmem
    have hnot := header_not_mem_forPhase env BPhase.inhale
      env.inhale_time (List.range (steps + 1)) 1 "## Hold"
    simp [hnot] at hmem
  · rw [htrace, hcb.1]
    intro hmem
    have hnot := header_not_mem_forPhase env BPhase.inhale
      env.inhale_time (List.range (steps + 1)) 1 "## Exhale"
    simp [hnot] at hmem
  · intro p hp
    rw [hframes] at hp
    rcases List.mem_map.mp hp with ⟨i, hi, hpair⟩
    exact absurd (congrArg Prod.fst hpair) (by simp)

/-- C3 witness: with the flag reads true, true, then false from read
index 2 on (cancellation observed at the checkpoint after the second
inhale frame), the run shows the two frames of progress 0 and 1/20 and
nothing of the hold or exhale phases. -/
theorem cancel_mid_inhale_stops_witness :
    ((∀ ph p, (⟨fun k => decide (k < 2), fun _ _ => none, 1, 1, 1, 3⟩
        : Env).fail ph p = none)
      ∧ MonoFalse (fun k => decide (k < 2))
      ∧ (fun k => decide (k < 2)) 2 = false
      ∧ (∀ i, i < 2 → (fun k => decide (k < 2)) i = true)
      ∧ 1 ≤ 2 ∧ 2 ≤ steps + 1)
    ∧ frames (whileLoop (⟨fun k => decide (k < 2), fun _ _ => none, 1, 1, 1, 3⟩
          : Env) (0 + 1) 0).1
        = (List.range 2).map (fun i : ℕ => (BPhase.inhale, (i : ℚ) / (steps : ℚ)))
    ∧ Ev.header "## Hold" ∉ (whileLoop (⟨fun k => decide (k < 2), fun _ _ => none,
          1, 1, 1, 3⟩ : Env) (0 + 1) 0).1
    ∧ Ev.header "## Exhale" ∉ (whileLoop (⟨fun k => decide (k < 2), fun _ _ => none,
          1, 1, 1, 3⟩ : Env) (0 + 1) 0).1
    ∧ ∀ p, (BPhase.exhale, p) ∉ frames (whileLoop (⟨fun k => decide (k < 2),
          fun _ _ => none, 1, 1, 1, 3⟩ : Env) (0 + 1) 0).1 := by
  have hmono : MonoFalse (fun k => decide (k < 2)) := by
    intro a b hab hfa
    simp only [decide_eq_false_iff_not] at hfa ⊢
    omega
  have h2 : (fun k => decide (k < 2)) 2 = false := by decide
  have hlt : ∀ i, i < 2 → (fun k => decide (k < 2)) i = true := by
    intro i hi
    simp only [decide_eq_true_eq]
    omega
  refine ⟨⟨fun _ _ => rfl, hmono, h2, hlt, by omega, by norm_num [steps]⟩, ?_⟩
  exact cancel_mid_inhale_stops _ 0 2 (fun _ _ => rfl) hmono h2 hlt
    (by omega) (by norm_num [steps])

/-- C4: any exception raised while producing or displaying a frame
inside the loop is caught at the loop boundary: the runner returns
normally with the same displayed trace, shows the user-visible message
`Animation error: {e}`, and forces the running flag to false, leaving
the session idle. -/
theorem animation_error_contained (env : Env) (fuel : ℕ) (msg : String)
    (h : (whileLoop env fuel 0).2 = some msg) :
    (run_breathing_animation env fuel).errMsg = some ("Animation error: " ++ msg)
    ∧ (run_breathing_animation env fuel).runningOverride = some false
    ∧ (run_breathing_animation env fuel).evs = (whileLoop env fuel 0).1 := by
  rw [run_breathing_animation]
  simp [h]

/-- C4 witness: a renderer that raises "boom" on the very first frame
is caught, surfaced as "Animation error: boom", and stops the session. -/
theorem animation_error_contained_witness :
    (whileLoop (⟨fun _ => true, fun _ _ => some "boom", 1, 1, 0, 0⟩ : Env) 1 0).2
        = some "boom"
    ∧ ((run_breathing_animation (⟨fun _ => true, fun _ _ => some "boom",
            1, 1, 0, 0⟩ : Env) 1).errMsg = some ("Animation error: " ++ "boom")
      ∧ (run_breathing_animation (⟨fun _ => true, fun _ _ => some "boom",
            1, 1, 0, 0⟩ : Env) 1).runningOverride = some false
      ∧ (run_breathing_animation (⟨fun _ => true, fun _ _ => some "boom",
            1, 1, 0, 0⟩ : Env) 1).evs
          = (whileLoop (⟨fun _ => true, fun _ _ => some "boom",
              1, 1, 0, 0⟩ : Env) 1 0).1) :=
  ⟨rfl, animation_error_contained _ 1 "boom" rfl⟩

/-! ### Checkpoint discipline (C6)

The loop's checkpoint discipline is captured by a small automaton over
traces: frames may only be displayed immediately after a true flag read
(possibly separated by headings), every suspension must be followed
directly by a flag read, and once a read returns false nothing but
further false reads may happen. -/

/-- Automaton states: `waitCheck` — no frame may be displayed until the
next true read; `armed` — the last non-heading event was a true read,
so a frame may be displayed; `slept` — the previous event was a
suspension, so a read must follow; `cancelled` — a read returned false,
so only further false reads may follow. -/
inductive AState where
  | waitCheck
  | armed
  | slept
  | cancelled
deriving DecidableEq

/-- Transition relation of the checkpoint-discipline automaton. -/
def stepA : AState → Ev → Option AState
  | AState.cancelled, Ev.check false => some AState.cancelled
  | AState.cancelled, _ => none
  | AState.slept, Ev.check true => some AState.armed
  | AState.slept, Ev.check false => some AState.cancelled
  | AState.slept, _ => none
  | AState.armed, Ev.check true => some AState.armed
  | AState.armed, Ev.check false => some AState.cancelled
  | AState.armed, Ev.header _ => some AState.armed
  | AState.armed, Ev.frame _ _ => some AState.waitCheck
  | AState.armed, Ev.sleepFor _ => some AState.slept
  | AState.waitCheck, Ev.check true => some AState.armed
  | AState.waitCheck, Ev.check false => some AState.cancelled
  | AState.waitCheck, Ev.header _ => some AState.waitCheck
  | AState.waitCheck, Ev.sleepFor _ => some AState.slept
  | AState.waitCheck, Ev.frame _ _ => none

/-- Run the automaton over a trace; `none` means the trace violates the
checkpoint discipline. -/
def runAuto : AState → List Ev → Option AState
  | s, [] => some s
  | s, e :: rest =>
    match stepA s e with
    | some s' => runAuto s' rest
    | none => none

lemma runAuto_cons (s : AState) (e : Ev) (l : List Ev) :
    runAuto s (e :: l) = (stepA s e).bind (fun s' => runAuto s' l) := by
  rw [runAuto]
  cases stepA s e <;> rfl

lemma runAuto_append (s : AState) (l1 l2 : List Ev) :
    runAuto s (l1 ++ l2) = (runAuto s l1).bind (fun s' => runAuto s' l2) := by
  induction l1 generalizing s with
  | nil => rfl
  | cons e rest ih =>
    rw [List.cons_append, runAuto_cons, runAuto_cons]
    cases stepA s e with
    | none => rfl
    | some s' => exact ih s'

/-- The only transitions into `armed` are a true read, or a heading
taken from `armed`. -/
lemma stepA_eq_armed (s₀ : AState) (e : Ev)
    (h : stepA s₀ e = some AState.armed) :
    e = Ev.check true ∨ ((∃ str, e = Ev.header str) ∧ s₀ = AState.armed) := by
  cases s₀ <;> cases e <;>
    first
    | (rename_i b; cases b <;> simp [stepA] at h <;> simp)
    | simp [stepA] at h
    | simp [stepA] at h ⊢
    | simp

lemma stepA_sleep (s₀ s₁ : AState) (d : ℚ)
    (h : stepA s₀ (Ev.sleepFor d) = some s₁) : s₁ = AState.slept := by
  cases s₀ <;> simp [stepA] at h <;> first | exact h.symm | exact h

lemma stepA_cancelled (e : Ev) (s₁ : AState)
    (h : stepA AState.cancelled e = some s₁) :
    e = Ev.check false ∧ s₁ = AState.cancelled := by
  cases e with
  | check b => cases b <;> simp [stepA] at h <;> simp [h]
  | header str => simp [stepA] at h
  | frame ph p => simp [stepA] at h
  | sleepFor d => simp [stepA] at h

lemma stepA_check_false (s₀ s₁ : AState)
    (h : stepA s₀ (Ev.check false) = some s₁) : s₁ = AState.cancelled := by
  cases s₀ <;> simp [stepA] at h <;> first | exact h.symm | exact h

/-- A phase loop's trace respects the checkpoint discipline: started
armed, the automaton accepts it, ending armed when the loop was not
broken (including when a renderer exception cut it short) and in the
cancelled state — with the next pending read already false — when it
was broken, provided the flag is monotone. -/
lemma runAuto_forPhase (env : Env) (ph : BPhase) (dur : ℚ)
    (hmono : MonoFalse env.r) (is : List ℕ) (k : ℕ) :
    ((forPhase env ph dur is k).broke = false
        ∧ runAuto AState.armed (forPhase env ph dur is k).evs = some AState.armed)
    ∨ ((forPhase env ph dur is k).broke = true
        ∧ runAuto AState.armed (forPhase env ph dur is k).evs = some AState.cancelled
        ∧ env.r (forPhase env ph dur is k).k = false) := by
  induction is generalizing k with
  | nil => left; exact ⟨rfl, rfl⟩
  | cons i rest ih =>
    rw [forPhase]
    cases hfail : env.fail ph (progAt ph i) with
    | some msg => left; exact ⟨rfl, rfl⟩
    | none =>
      cases hr : env.r k with
      | false =>
        right
        rw [if_neg (by simp)]
        refine ⟨rfl, ?_, hmono k (k + 1) (by omega) hr⟩
        rfl
      | true =>
        rw [if_pos rfl]
        have hblk : runAuto AState.armed [Ev.frame ph (progAt ph i),
            Ev.sleepFor (dur / (steps : ℚ)), Ev.check true]
            = some AState.armed := rfl
        rcases ih (k + 1) with ⟨hb, hrun⟩ | ⟨hb, hrun, hrk⟩
        · left
          refine ⟨hb, ?_⟩
          show runAuto AState.armed ([Ev.frame ph (progAt ph i),
              Ev.sleepFor (dur / (steps : ℚ)), Ev.check true]
              ++ (forPhase env ph dur rest (k + 1)).evs) = some AState.armed
          rw [runAuto_append, hblk]
          exact hrun
        · right
          refine ⟨hb, ?_, hrk⟩
          show runAuto AState.armed ([Ev.frame ph (progAt ph i),
              Ev.sleepFor (dur / (steps : ℚ)), Ev.check true]
              ++ (forPhase env ph dur rest (k + 1)).evs) = some AState.cancelled
          rw [runAuto_append, hblk]
          exact hrun

/-- The hold busy-wait's trace respects the checkpoint discipline from
either the armed or the slept state. -/
lemma runAuto_holdWait (env : Env) (hmono : MonoFalse env.r) (m k : ℕ)
    (s₀ : AState) (hs : s₀ = AState.armed ∨ s₀ = AState.slept) :
    ∃ s', runAuto s₀ (holdWait env m k).1 = some s'
      ∧ (s' = AState.armed ∨ s' = AState.slept
         ∨ (s' = AState.cancelled ∧ env.r (holdWait env m k).2 = false)) := by
  induction m generalizing k s₀ with
  | zero => exact ⟨s₀, rfl, by rcases hs with h | h <;> simp [h]⟩
  | succ n ih =>
    cases hr : env.r k with
    | true =>
      simp only [holdWait, hr, if_true]
      have h1 : stepA s₀ (Ev.check true) = some AState.armed := by
        rcases hs with h | h <;> subst h <;> rfl
      obtain ⟨s', hrun, hcase⟩ := ih (k + 1) AState.slept (Or.inr rfl)
      refine ⟨s', ?_, ?_⟩
      · rw [runAuto_cons, h1, Option.some_bind, runAuto_cons]
        rw [show stepA AState.armed (Ev.sleepFor (1/10))
            = some AState.slept from rfl, Option.some_bind]
        exact hrun
      · exact hcase
    | false =>
      simp only [holdWait, hr, Bool.false_eq_true, if_false]
      refine ⟨AState.cancelled, ?_, Or.inr (Or.inr ⟨rfl, ?_⟩)⟩
      · rcases hs with h | h <;> subst h <;> rfl
      · exact hmono k (k + 1) (by omega) hr

lemma runAuto_append_some (s₁ s₂ : AState) (l1 l2 : List Ev)
    (h : runAuto s₁ l1 = some s₂) :
    runAuto s₁ (l1 ++ l2) = runAuto s₂ l2 := by
  rw [runAuto_append, h, Option.some_bind]

lemma runAuto_cons_some (s₁ s₂ : AState) (e : Ev) (l : List Ev)
    (h : stepA s₁ e = some s₂) :
    runAuto s₁ (e :: l) = runAuto s₂ l := by
  rw [runAuto_cons, h, Option.some_bind]

/-- One while-body iteration's trace respects the checkpoint
discipline: started armed it is accepted, ending armed, or cancelled
with the next pending read already false. -/
lemma runAuto_cycleBody (env : Env) (hmono : MonoFalse env.r) (k : ℕ) :
    ∃ s', runAuto AState.armed (cycleBody env k).evs = some s'
      ∧ (s' = AState.armed
         ∨ (s' = AState.cancelled ∧ env.r (cycleBody env k).k = false)) := by
  obtain ⟨s₁, hrun1, hcase1⟩ :
      ∃ s₁, runAuto AState.armed (forPhase env BPhase.inhale env.inhale_time
          (List.range (steps + 1)) k).evs = some s₁
        ∧ (s₁ = AState.armed ∨ (s₁ = AState.cancelled
            ∧ env.r (forPhase env BPhase.inhale env.inhale_time
                (List.range (steps + 1)) k).k = false)) := by
    rcases runAuto_forPhase env BPhase.inhale env.inhale_time hmono
        (List.range (steps + 1)) k with ⟨hb, hr⟩ | ⟨hb, hr, hk⟩
    · exact ⟨_, hr, Or.inl rfl⟩
    · exact ⟨_, hr, Or.inr ⟨rfl, hk⟩⟩
  simp only [cycleBody]
  cases hexn : (forPhase env BPhase.inhale env.inhale_time
      (List.range (steps + 1)) k).exn with
  | some msg =>
    refine ⟨s₁, ?_, hcase1⟩
    try dsimp only
    rw [runAuto_cons_some AState.armed AState.armed (Ev.header "## Inhale") _ rfl]
    exact hrun1
  | none =>
    cases hrln : env.r (forPhase env BPhase.inhale env.inhale_time
        (List.range (steps + 1)) k).k with
    | false =>
      rw [if_neg (by simp)]
      dsimp only
      refine ⟨AState.cancelled, ?_, Or.inr ⟨rfl, hmono _ _ (Nat.le_succ _) hrln⟩⟩
      simp only [List.cons_append, List.append_assoc, List.nil_append]
      rw [runAuto_cons_some AState.armed AState.armed (Ev.header "## Inhale") _ rfl,
        runAuto_append_some AState.armed s₁ _ _ hrun1]
      rcases hcase1 with h | ⟨h, _⟩ <;> subst h <;> rfl
    | true =>
      rw [if_pos rfl]
      have hs₁ : s₁ = AState.armed := by
        rcases hcase1 with h | ⟨h, hf⟩
        · exact h
        · rw [hrln] at hf; exact absurd hf (by simp)
      subst hs₁
      by_cases hht : 0 < env.hold_time
      · rw [if_pos hht]
        dsimp only
        obtain ⟨s₂, hrunH, hcaseH⟩ := runAuto_holdWait env hmono env.holdIters
          ((forPhase env BPhase.inhale env.inhale_time
            (List.range (steps + 1)) k).k + 1) AState.armed (Or.inl rfl)
        cases hr2 : env.r (holdWait env env.holdIters
            ((forPhase env BPhase.inhale env.inhale_time
              (List.range (steps + 1)) k).k + 1)).2 with
        | false =>
          rw [if_neg (by simp)]
          dsimp only
          refine ⟨AState.cancelled, ?_,
            Or.inr ⟨rfl, hmono _ _ (Nat.le_succ _) hr2⟩⟩
          simp only [List.cons_append, List.append_assoc, List.nil_append]
          rw [runAuto_cons_some AState.armed AState.armed
              (Ev.header "## Inhale") _ rfl,
            runAuto_append_some AState.armed AState.armed _ _ hrun1,
            runAuto_cons_some AState.armed AState.armed (Ev.check true) _ rfl,
            runAuto_cons_some AState.armed AState.armed
              (Ev.header "## Hold") _ rfl,
            runAuto_append_some AState.armed s₂ _ _ hrunH]
          rcases hcaseH with h | h | ⟨h, _⟩ <;> subst h <;> rfl
        | true =>
          rw [if_pos rfl]
          dsimp only
          have hs₂ : s₂ = AState.armed ∨ s₂ = AState.slept := by
            rcases hcaseH with h | h | ⟨h, hf⟩
            · exact Or.inl h
            · exact Or.inr h
            · rw [hr2] at hf; exact absurd hf (by simp)
          obtain ⟨s₃, hrun3, hcase3⟩ :
              ∃ s₃, runAuto AState.armed (forPhase env BPhase.exhale
                  env.exhale_time (List.range (steps + 1))
                  ((holdWait env env.holdIters
                    ((forPhase env BPhase.inhale env.inhale_time
                      (List.range (steps + 1)) k).k + 1)).2 + 1)).evs = some s₃
                ∧ (s₃ = AState.armed ∨ (s₃ = AState.cancelled
                    ∧ env.r (forPhase env BPhase.exhale env.exhale_time
                        (List.range (steps + 1))
                        ((holdWait env env.holdIters
                          ((forPhase env BPhase.inhale env.inhale_time
                            (List.range (steps + 1)) k).k + 1)).2 + 1)).k
                      = false)) := by
            rcases runAuto_forPhase env BPhase.exhale env.exhale_time hmono
                (List.range (steps + 1)) _ with ⟨hb, hr⟩ | ⟨hb, hr, hk⟩
            · exact ⟨_, hr, Or.inl rfl⟩
            · exact ⟨_, hr, Or.inr ⟨rfl, hk⟩⟩
          refine ⟨s₃, ?_, hcase3⟩
          simp only [List.cons_append, List.append_assoc, List.nil_append]
          rw [runAuto_cons_some AState.armed AState.armed
              (Ev.header "## Inhale") _ rfl,
            runAuto_append_some AState.armed AState.armed _ _ hrun1,
            runAuto_cons_some AState.armed AState.armed (Ev.check true) _ rfl,
            runAuto_cons_some AState.armed AState.armed
              (Ev.header "## Hold") _ rfl,
            runAuto_append_some AState.armed s₂ _ _ hrunH]
          rcases hs₂ with h | h <;> subst h
          · rw [runAuto_cons_some AState.armed AState.armed (Ev.check true) _ rfl,
              runAuto_cons_some AState.armed AState.armed
                (Ev.header "## Exhale") _ rfl]
            exact hrun3
          · rw [runAuto_cons_some AState.slept AState.armed (Ev.check true) _ rfl,
              runAuto_cons_some AState.armed AState.armed
                (Ev.header "## Exhale") _ rfl]
            exact hrun3
      · rw [if_neg hht]
        dsimp only
        cases hr2 : env.r ((forPhase env BPhase.inhale env.inhale_time
            (List.range (steps + 1)) k).k + 1) with
        | false =>
          rw [if_neg (by simp)]
          dsimp only
          refine ⟨AState.cancelled, ?_,
            Or.inr ⟨rfl, hmono _ _ (Nat.le_succ _) hr2⟩⟩
          simp only [List.cons_append, List.append_assoc, List.nil_append]
          rw [runAuto_cons_some AState.armed AState.armed
              (Ev.header "## Inhale") _ rfl,
            runAuto_append_some AState.armed AState.armed _ _ hrun1,
            runAuto_cons_some AState.armed AState.armed (Ev.check true) _ rfl]
          rfl
        | true =>
          rw [if_pos rfl]
          dsimp only
          obtain ⟨s₃, hrun3, hcase3⟩ :
              ∃ s₃, runAuto AState.armed (forPhase env BPhase.exhale
                  env.exhale_time (List.range (steps + 1))
                  ((forPhase env BPhase.inhale env.inhale_time
                    (List.range (steps + 1)) k).k + 1 + 1)).evs = some s₃
                ∧ (s₃ = AState.armed ∨ (s₃ = AState.cancelled
                    ∧ env.r (forPhase env BPhase.exhale env.exhale_time
                        (List.range (steps + 1))
                        ((forPhase env BPhase.inhale env.inhale_time
                          (List.range (steps + 1)) k).k + 1 + 1)).k
                      = false)) := by
            rcases runAuto_forPhase env BPhase.exhale env.exhale_time hmono
                (List.range (steps + 1)) _ with ⟨hb, hr⟩ | ⟨hb, hr, hk⟩
            · exact ⟨_, hr, Or.inl rfl⟩
            · exact ⟨_, hr, Or.inr ⟨rfl, hk⟩⟩
          refine ⟨s₃, ?_, hcase3⟩
          simp only [List.cons_append, List.append_assoc, List.nil_append]
          rw [runAuto_cons_some AState.armed AState.armed
              (Ev.header "## Inhale") _ rfl,
            runAuto_append_some AState.armed AState.armed _ _ hrun1,
            runAuto_cons_some AState.armed AState.armed (Ev.check true) _ rfl,
            runAuto_cons_some AState.armed AState.armed (Ev.check true) _ rfl,
            runAuto_cons_some AState.armed AState.armed
              (Ev.header "## Exhale") _ rfl]
          exact hrun3

/-- The full loop's trace respects the checkpoint discipline and never
ends right after a suspension. -/
lemma runAuto_whileLoop (env : Env) (hmono : MonoFalse env.r) :
    ∀ (fuel k : ℕ) (s₀ : AState),
      (s₀ = AState.waitCheck ∨ s₀ = AState.armed
        ∨ (s₀ = AState.cancelled ∧ env.r k = false)) →
      ∃ s', runAuto s₀ (whileLoop env fuel k).1 = some s'
        ∧ s' ≠ AState.slept := by
  intro fuel
  induction fuel with
  | zero =>
    intro k s₀ hs
    exact ⟨s₀, rfl, by rcases hs with h | h | ⟨h, _⟩ <;> simp [h]⟩
  | succ n ih =>
    intro k s₀ hs
    cases hr : env.r k with
    | false =>
      simp only [whileLoop, hr, Bool.false_eq_true, if_false]
      refine ⟨AState.cancelled, ?_, by simp⟩
      rcases hs with h | h | ⟨h, _⟩ <;> subst h <;> rfl
    | true =>
      simp only [whileLoop, hr, if_true]
      have hstep : stepA s₀ (Ev.check true) = some AState.armed := by
        rcases hs with h | h | ⟨h, hf⟩
        · subst h; rfl
        · subst h; rfl
        · rw [hr] at hf; exact absurd hf (by simp)
      obtain ⟨s₁, hrun1, hcase1⟩ := runAuto_cycleBody env hmono (k + 1)
      cases hexn : (cycleBody env (k + 1)).exn with
      | some msg =>
        refine ⟨s₁, ?_, ?_⟩
        · rw [runAuto_cons_some s₀ AState.armed (Ev.check true) _ hstep]
          exact hrun1
        · rcases hcase1 with h | ⟨h, _⟩ <;> subst h <;> simp
      | none =>
        cases hbr : (cycleBody env (k + 1)).broke with
        | true =>
          refine ⟨s₁, ?_, ?_⟩
          · rw [if_pos rfl]
            rw [runAuto_cons_some s₀ AState.armed (Ev.check true) _ hstep]
            exact hrun1
          · rcases hcase1 with h | ⟨h, _⟩ <;> subst h <;> simp
        | false =>
          rw [if_neg (by simp)]
          obtain ⟨s₂, hrun2, hne2⟩ := ih (cycleBody env (k + 1)).k s₁ (by
            rcases hcase1 with h | ⟨h, hf⟩
            · exact Or.inr (Or.inl h)
            · exact Or.inr (Or.inr ⟨h, hf⟩))
          refine ⟨s₂, ?_, hne2⟩
          dsimp only
          rw [List.cons_append,
            runAuto_cons_some s₀ AState.armed (Ev.check true) _ hstep,
            runAuto_append_some AState.armed s₁ _ _ hrun1]
          exact hrun2

/-- In an accepted trace, every frame is preceded by a true flag read
with only headings in between (or the run began armed, which the real
loop never does). -/
lemma runAuto_frame_decomp :
    ∀ (t1 : List Ev) (s₀ s' : AState) (ph : BPhase) (p : ℚ) (t2 : List Ev),
      runAuto s₀ (t1 ++ Ev.frame ph p :: t2) = some s' →
      (s₀ = AState.armed ∧ ∀ e ∈ t1, ∃ str, e = Ev.header str)
      ∨ ∃ u1 u2, t1 = u1 ++ Ev.check true :: u2
          ∧ ∀ e ∈ u2, ∃ str, e = Ev.header str := by
  intro t1
  induction t1 with
  | nil =>
    intro s₀ s' ph p t2 hrun
    left
    refine ⟨?_, by simp⟩
    rw [List.nil_append, runAuto_cons] at hrun
    cases s₀ with
    | armed => rfl
    | waitCheck => simp [stepA] at hrun
    | slept => simp [stepA] at hrun
    | cancelled => simp [stepA] at hrun
  | cons e rest ih =>
    intro s₀ s' ph p t2 hrun
    rw [List.cons_append, runAuto_cons] at hrun
    cases hstep : stepA s₀ e with
    | none => rw [hstep] at hrun; simp at hrun
    | some s₁ =>
      rw [hstep, Option.some_bind] at hrun
      rcases ih s₁ s' ph p t2 hrun with ⟨h1, h2⟩ | ⟨u1, u2, hu, hh⟩
      · subst h1
        rcases stepA_eq_armed s₀ e hstep with he | ⟨⟨str, he⟩, hs⟩
        · right
          exact ⟨[], rest, by rw [he, List.nil_append], h2⟩
        · left
          refine ⟨hs, ?_⟩
          intro x hx
          rcases List.mem_cons.mp hx with h | h
          · exact ⟨str, by rw [h, he]⟩
          · exact h2 x h
      · right
        exact ⟨e :: u1, u2, by rw [hu, List.cons_append], hh⟩

/-- In an accepted trace that does not end in the slept state, every
suspension is immediately followed by a flag read. -/
lemma runAuto_sleep_decomp :
    ∀ (t1 : List Ev) (s₀ s' : AState) (d : ℚ) (t2 : List Ev),
      runAuto s₀ (t1 ++ Ev.sleepFor d :: t2) = some s' → s' ≠ AState.slept →
      ∃ b t3, t2 = Ev.check b :: t3 := by
  intro t1
  induction t1 with
  | nil =>
    intro s₀ s' d t2 hrun hne
    rw [List.nil_append, runAuto_cons] at hrun
    cases hstep : stepA s₀ (Ev.sleepFor d) with
    | none => rw [hstep] at hrun; simp at hrun
    | some s₁ =>
      rw [hstep, Option.some_bind] at hrun
      have hs₁ : s₁ = AState.slept := stepA_sleep s₀ s₁ d hstep
      subst hs₁
      cases t2 with
      | nil =>
        rw [runAuto] at hrun
        exact absurd (Option.some.inj hrun).symm hne
      | cons e t3 =>
        cases e with
        | check b => exact ⟨b, t3, rfl⟩
        | header str => rw [runAuto_cons] at hrun; simp [stepA] at hrun
        | frame ph p => rw [runAuto_cons] at hrun; simp [stepA] at hrun
        | sleepFor d2 => rw [runAuto_cons] at hrun; simp [stepA] at hrun
  | cons e rest ih =>
    intro s₀ s' d t2 hrun hne
    rw [List.cons_append, runAuto_cons] at hrun
    cases hstep : stepA s₀ e with
    | none => rw [hstep] at hrun; simp at hrun
    | some s₁ =>
      rw [hstep, Option.some_bind] at hrun
      exact ih s₁ s' d t2 hrun hne

/-- From the cancelled state an accepted trace consists only of false
flag reads. -/
lemma runAuto_cancelled_tail :
    ∀ (t : List Ev) (s' : AState), runAuto AState.cancelled t = some s' →
      ∀ e ∈ t, e = Ev.check false := by
  intro t
  induction t with
  | nil => intro s' _ e he; simp at he
  | cons e rest ih =>
    intro s' hrun x hx
    rw [runAuto_cons] at hrun
    cases hstep : stepA AState.cancelled e with
    | none => rw [hstep] at hrun; simp at hrun
    | some s₁ =>
      obtain ⟨he, hs₁⟩ := stepA_cancelled e s₁ hstep
      rw [hstep, Option.some_bind] at hrun
      rcases List.mem_cons.mp hx with h | h
      · rw [h, he]
      · subst hs₁
        exact ih s' hrun x h

/-- In an accepted trace, once a flag read returns false, everything
that follows is another false flag read: the cycle is aborted with no
further frames, headings or suspensions. -/
lemma runAuto_false_check_decomp :
    ∀ (t1 : List Ev) (s₀ s' : AState) (t2 : List Ev),
      runAuto s₀ (t1 ++ Ev.check false :: t2) = some s' →
      ∀ e ∈ t2, e = Ev.check false := by
  intro t1
  induction t1 with
  | nil =>
    intro s₀ s' t2 hrun
    rw [List.nil_append, runAuto_cons] at hrun
    cases hstep : stepA s₀ (Ev.check false) with
    | none => rw [hstep] at hrun; simp at hrun
    | some s₁ =>
      rw [hstep, Option.some_bind] at hrun
      rw [stepA_check_false s₀ s₁ hstep] at hrun
      exact runAuto_cancelled_tail t2 s' hrun
  | cons e rest ih =>
    intro s₀ s' t2 hrun
    rw [List.cons_append, runAuto_cons] at hrun
    cases hstep : stepA s₀ e with
    | none => rw [hstep] at hrun; simp at hrun
    | some s₁ =>
      rw [hstep, Option.some_bind] at hrun
      exact ih s₁ s' t2 hrun

/-- C6: during the animated phases the loop obeys the checkpoint
discipline.  For any monotone flag and any run: (1) every displayed
frame is preceded by a checkpoint that read true, with nothing but
headings between that read and the frame; (2) every suspension is
immediately followed by a checkpoint; (3) a checkpoint that reads false
aborts the whole cycle at once — nothing but further false reads (in
particular no frame, heading or suspension of any later phase) ever
follows it. -/
theorem checkpoint_discipline (env : Env) (fuel : ℕ)
    (hmono : MonoFalse env.r) :
    (∀ t1 ph p t2, (whileLoop env fuel 0).1 = t1 ++ Ev.frame ph p :: t2 →
        ∃ u1 u2, t1 = u1 ++ Ev.check true :: u2
          ∧ ∀ e ∈ u2, ∃ str, e = Ev.header str)
    ∧ (∀ t1 d t2, (whileLoop env fuel 0).1 = t1 ++ Ev.sleepFor d :: t2 →
        ∃ b t3, t2 = Ev.check b :: t3)
    ∧ (∀ t1 t2, (whileLoop env fuel 0).1 = t1 ++ Ev.check false :: t2 →
        ∀ e ∈ t2, e = Ev.check false) := by
  obtain ⟨s', hrun, hne⟩ := runAuto_whileLoop env hmono fuel 0
    AState.waitCheck (Or.inl rfl)
  refine ⟨?_, ?_, ?_⟩
  · intro t1 ph p t2 hsplit
    rw [hsplit] at hrun
    rcases runAuto_frame_decomp t1 AState.waitCheck s' ph p t2 hrun with
      ⟨h1, _⟩ | h
    · exact absurd h1 (by simp)
    · exact h
  · intro t1 d t2 hsplit
    rw [hsplit] at hrun
    exact runAuto_sleep_decomp t1 AState.waitCheck s' d t2 hrun hne
  · intro t1 t2 hsplit
    rw [hsplit] at hrun
    exact runAuto_false_check_decomp t1 AState.waitCheck s' t2 hrun

/-- C6 witness: the checkpoint discipline holds for a concrete
single-cycle run with the flag held true. -/
theorem checkpoint_discipline_witness :
    MonoFalse (Env.r (⟨fun _ => true, fun _ _ => none, 1, 1, 1, 2⟩ : Env))
    ∧ ((∀ t1 ph p t2, (whileLoop (⟨fun _ => true, fun _ _ => none,
            1, 1, 1, 2⟩ : Env) 1 0).1 = t1 ++ Ev.frame ph p :: t2 →
          ∃ u1 u2, t1 = u1 ++ Ev.check true :: u2
            ∧ ∀ e ∈ u2, ∃ str, e = Ev.header str)
      ∧ (∀ t1 d t2, (whileLoop (⟨fun _ => true, fun _ _ => none,
            1, 1, 1, 2⟩ : Env) 1 0).1 = t1 ++ Ev.sleepFor d :: t2 →
          ∃ b t3, t2 = Ev.check b :: t3)
      ∧ (∀ t1 t2, (whileLoop (⟨fun _ => true, fun _ _ => none,
            1, 1, 1, 2⟩ : Env) 1 0).1 = t1 ++ Ev.check false :: t2 →
          ∀ e ∈ t2, e = Ev.check false)) := by
  have hmono : MonoFalse (Env.r (⟨fun _ => true, fun _ _ => none,
      1, 1, 1, 2⟩ : Env)) := by
    intro a b hab hfa
    exact absurd hfa (by simp)
  exact ⟨hmono, checkpoint_discipline _ 1 hmono⟩

end Breath
